import Mathlib

/-!
Shallow embedding of `src/app.py` (autonomous snake with A* pathfinding),
together with theorems checking the specification's claims about it.

Coordinates are kept in the source's units: pixels, with cells aligned to
multiples of `GRID_SIZE`.  The snake's segment positions are `pygame`
`Vector2` values in the source whose coordinates always hold integral
values; they are embedded as integer pairs.
-/

namespace SnakeApp

/-- A grid position in pixel coordinates, as the tuples `(x, y)` the source
passes around. -/
abbrev Cell : Type := Int × Int

def WIDTH : Int := 640

def HEIGHT : Int := 480

def GRID_SIZE : Int := 20

/-- `SnakeAI.heuristic`: Manhattan distance `abs(b[0]-a[0]) + abs(b[1]-a[1])`
between two pixel positions (a natural number, since it is a sum of absolute
values). -/
def heuristic (a b : Cell) : Nat :=
  (b.1 - a.1).natAbs + (b.2 - a.2).natAbs

/-- Membership used for `next in [(pos.x, pos.y) for pos in self.position]`. -/
def containsC : List Cell → Cell → Bool
  | [], _ => false
  | k :: rest, c => if c = k then true else containsC rest c

/-- Lookup in an association list modelling a Python dict: later assignments
are modelled as shadowing cons cells, so the first hit wins. -/
def lookupC {α : Type} (k : Cell) : List (Cell × α) → Option α
  | [] => none
  | (k₁, v) :: rest => if k = k₁ then some v else lookupC k rest

/-- A frontier entry `(priority, cell)` as pushed on the `heapq` heap. -/
abbrev Entry : Type := Nat × Cell

/-- Strict order on heap entries: Python compares the tuples
`(priority, (x, y))` lexicographically. -/
def entryLt (e f : Entry) : Prop :=
  e.1 < f.1 ∨ (e.1 = f.1 ∧ (e.2.1 < f.2.1 ∨ (e.2.1 = f.2.1 ∧ e.2.2 < f.2.2)))

instance (e f : Entry) : Decidable (entryLt e f) :=
  inferInstanceAs (Decidable
    (e.1 < f.1 ∨ (e.1 = f.1 ∧ (e.2.1 < f.2.1 ∨ (e.2.1 = f.2.1 ∧ e.2.2 < f.2.2)))))

/-- Reflexive order on heap entries. -/
def entryLe (e f : Entry) : Prop :=
  e.1 < f.1 ∨ (e.1 = f.1 ∧ (e.2.1 < f.2.1 ∨ (e.2.1 = f.2.1 ∧ e.2.2 ≤ f.2.2)))

instance (e f : Entry) : Decidable (entryLe e f) :=
  inferInstanceAs (Decidable
    (e.1 < f.1 ∨ (e.1 = f.1 ∧ (e.2.1 < f.2.1 ∨ (e.2.1 = f.2.1 ∧ e.2.2 ≤ f.2.2)))))

/-- `heapq.heappop`: remove and return the least entry of the frontier under
the lexicographic tuple order.  The frontier is modelled as the plain list of
entries pushed so far; `heappop` always returns the minimum of the heap, and
all live entries are distinct tuples, so pop order is fully determined by
this minimum. -/
def popMin : List Entry → Option (Entry × List Entry)
  | [] => none
  | e :: rest =>
    match popMin rest with
    | none => some (e, [])
    | some (m, rest₁) => if entryLt m e then some (m, e :: rest₁) else some (e, rest)

/-- The state of one `astar` search: the frontier `openl`, the `came_from`
and `cost_so_far` dicts, the loop variable `current`, and a ghost `trace`
recording each cell as it is expanded (popped with successors generated).
The trace has no effect on any other field. -/
structure AState where
  openl : List Entry
  came : List (Cell × Option Cell)
  cost : List (Cell × Nat)
  current : Cell
  trace : List Cell

/-- The four successor offsets `[(1,0),(-1,0),(0,1),(0,-1)]` scaled by
`GRID_SIZE`, in source order. -/
def neighborList (c : Cell) : List Cell :=
  [(c.1 + GRID_SIZE, c.2), (c.1 - GRID_SIZE, c.2),
   (c.1, c.2 + GRID_SIZE), (c.1, c.2 - GRID_SIZE)]

/-- One iteration of the successor loop body of `astar` for one candidate
cell `nb`: skip it when out of bounds or in the body, otherwise update
`cost_so_far`, push the frontier entry and set `came_from` whenever the cell
is new or strictly cheaper.  `current` always carries a `cost_so_far` entry
(every popped frontier entry was pushed together with one), so the `getD`
default is never read on a reachable state. -/
def expandOne (pos : List Cell) (endc : Cell) (st : AState) (nb : Cell) : AState :=
  if nb.1 < 0 ∨ WIDTH ≤ nb.1 ∨ nb.2 < 0 ∨ HEIGHT ≤ nb.2 ∨ containsC pos nb = true then
    st
  else
    let newCost : Nat := (lookupC st.current st.cost).getD 0 + 1
    let doPush : Bool :=
      match lookupC nb st.cost with
      | none => true
      | some g => decide (newCost < g)
    if doPush then
      { st with
        cost := (nb, newCost) :: st.cost,
        openl := st.openl ++ [(newCost + heuristic nb endc, nb)],
        came := (nb, some st.current) :: st.came }
    else st

/-- The full successor loop of one `astar` iteration: the four candidates in
source order. -/
def expand (pos : List Cell) (endc : Cell) (st : AState) : AState :=
  List.foldl (expandOne pos endc) st (neighborList st.current)

/-- The `while open_list:` loop of `astar`, fuelled.  Fuel exhaustion is
modelled as producing no result.  `some st` is a genuine loop exit: either
the frontier emptied, or the popped cell equals `end` (the `break`). -/
def astarLoop (pos : List Cell) (endc : Cell) : Nat → AState → Option AState
  | 0, _ => none
  | Nat.succ n, st =>
    match popMin st.openl with
    | none => some st
    | some ((_, cur), rest) =>
      if cur = endc then
        some { st with openl := rest, current := cur }
      else
        astarLoop pos endc n
          (expand pos endc { st with openl := rest, current := cur, trace := st.trace ++ [cur] })

/-- The path reconstruction loop of `astar`: walk `came_from` from `cur`
back to `start`, then reverse.  (The source appends to a list and reverses;
here the path is built directly in forward order.)  A missing `came_from`
entry or a `None` parent before reaching `start` is a `KeyError`/divergence
in the source and is modelled as producing no result, as is fuel
exhaustion. -/
def reconstruct (came : List (Cell × Option Cell)) (start : Cell) : Nat → Cell → Option (List Cell)
  | 0, _ => none
  | Nat.succ n, cur =>
    if cur = start then some [start]
    else
      match lookupC cur came with
      | some (some prev) => Option.map (fun p => p ++ [cur]) (reconstruct came start n prev)
      | _ => none

/-- `SnakeAI.astar(start, end)`, with the occupancy list `pos` standing for
`self.position` and explicit fuel for the two loops. -/
def astar (fuel : Nat) (pos : List Cell) (start endc : Cell) : Option (List Cell) :=
  let st0 : AState :=
    ⟨[(heuristic start endc, start)], [(start, none)], [(start, 0)], start, []⟩
  match astarLoop pos endc fuel st0 with
  | none => none
  | some st =>
    match lookupC endc st.came with
    | none => none
    | some _ => reconstruct st.came start fuel st.current

/-- The ghost trace of a run of `astar`: the cells expanded (popped and
given successors), in order.  The final pop that `break`s on `end` is not an
expansion and is not recorded. -/
def astarTrace (fuel : Nat) (pos : List Cell) (start endc : Cell) : Option (List Cell) :=
  let st0 : AState :=
    ⟨[(heuristic start endc, start)], [(start, none)], [(start, 0)], start, []⟩
  Option.map AState.trace (astarLoop pos endc fuel st0)

/-- The session state of `SnakeAI`: the segment list (head first), the
direction vector, the `length` field, the food cell and the score. -/
structure Snake where
  position : List Cell
  direction : Cell
  length : Nat
  food : Cell
  score : Nat
  deriving DecidableEq

/-- `SnakeAI.generate_food`: repeatedly draw a candidate cell and accept the
first one not occupied by the snake.  The source draws candidates with
`random.randint`; that external randomness is passed in as the stream of
successive sampled cells.  Fuel exhaustion models the (probability-zero)
divergence of the sampling loop. -/
def generate_food (stream : Nat → Cell) (pos : List Cell) : Nat → Nat → Option Cell
  | 0, _ => none
  | Nat.succ n, k =>
    if stream k ∈ pos then generate_food stream pos n (k + 1) else some (stream k)

/-- The sign of an integer.  `Vector2.normalize` applied to the axis-aligned
step vectors `(±GRID_SIZE, 0)` and `(0, ±GRID_SIZE)` produced in `move`
yields exactly the unit vectors `(sgn dx, sgn dy)`. -/
def sgn (x : Int) : Int :=
  if x < 0 then -1 else if 0 < x then 1 else 0

/-- `SnakeAI.move`: run `astar` from the head to the food; with no path or a
path shorter than 2 cells, do nothing; otherwise step to `path[1]`, growing
and regenerating food when it is the food cell, else dropping the tail.
An empty segment list (`self.position[0]` raising) and a diverging
`generate_food` are modelled as producing no result. -/
def move (fuel : Nat) (stream : Nat → Cell) (s : Snake) : Option Snake :=
  match s.position with
  | [] => none
  | start :: _ =>
    match astar fuel s.position start s.food with
    | none => some s
    | some path =>
      if path.length < 2 then some s
      else
        match path.get? 1 with
        | none => some s
        | some nxt =>
          let dir : Cell := (sgn (nxt.1 - start.1), sgn (nxt.2 - start.2))
          let grown : List Cell := nxt :: s.position
          if nxt = s.food then
            match generate_food stream grown fuel 0 with
            | none => none
            | some f => some ⟨grown, dir, s.length + 1, f, s.score + 1⟩
          else
            some ⟨grown.dropLast, dir, s.length, s.food, s.score⟩

/-- `SnakeAI.__init__`: one segment at `(5*GRID_SIZE, 5*GRID_SIZE)`,
direction `(1, 0)`, length 1, a freshly generated food cell, score 0. -/
def initSnake (stream : Nat → Cell) (fuel : Nat) : Option Snake :=
  match generate_food stream [(5 * GRID_SIZE, 5 * GRID_SIZE)] fuel 0 with
  | none => none
  | some f => some ⟨[(5 * GRID_SIZE, 5 * GRID_SIZE)], (1, 0), 1, f, 0⟩

/-- `SnakeAI.check_collision` on the segment list: true when the head is
outside the screen or equals a later segment.  An empty segment list
(`self.position[0]` raising) is modelled as producing no result. -/
def check_collision : List Cell → Option Bool
  | [] => none
  | hd :: rest =>
    some (decide (hd.1 < 0) || decide (WIDTH ≤ hd.1) || decide (hd.2 < 0) ||
          decide (HEIGHT ≤ hd.2) || decide (hd ∈ rest))

/-! ### Spec-modelled comparison variants of the search

Two further definitions follow the specification's words rather than the
source, to compare behaviours for the refinement claims: one breaks frontier
ties by insertion order, the other exempts the end cell from the occupancy
filter.  Everything else mirrors `astar`. -/

/-- Modelled from the spec: pop the earliest-inserted entry among those of
minimal priority ("ties broken by insertion/discovery order"). -/
def popMinStable : List Entry → Option (Entry × List Entry)
  | [] => none
  | e :: rest =>
    match popMinStable rest with
    | none => some (e, [])
    | some (m, rest₁) => if m.1 < e.1 then some (m, e :: rest₁) else some (e, rest)

/-- The `astar` loop with the stable tie-breaking frontier of the spec. -/
def astarLoopStable (pos : List Cell) (endc : Cell) : Nat → AState → Option AState
  | 0, _ => none
  | Nat.succ n, st =>
    match popMinStable st.openl with
    | none => some st
    | some ((_, cur), rest) =>
      if cur = endc then
        some { st with openl := rest, current := cur }
      else
        astarLoopStable pos endc n
          (expand pos endc { st with openl := rest, current := cur, trace := st.trace ++ [cur] })

/-- Modelled from the spec: `astar` with frontier ties broken by insertion
order instead of by comparing the cell tuples. -/
def astarStable (fuel : Nat) (pos : List Cell) (start endc : Cell) : Option (List Cell) :=
  let st0 : AState :=
    ⟨[(heuristic start endc, start)], [(start, none)], [(start, 0)], start, []⟩
  match astarLoopStable pos endc fuel st0 with
  | none => none
  | some st =>
    match lookupC endc st.came with
    | none => none
    | some _ => reconstruct st.came start fuel st.current

/-- Modelled from the spec: the successor filter with the exemption "the end
cell is always eligible regardless of occupancy" — a cell is skipped when out
of bounds, or when occupied and different from the end cell. -/
def expandOneExempt (pos : List Cell) (endc : Cell) (st : AState) (nb : Cell) : AState :=
  if nb.1 < 0 ∨ WIDTH ≤ nb.1 ∨ nb.2 < 0 ∨ HEIGHT ≤ nb.2 ∨
      (containsC pos nb = true ∧ nb ≠ endc) then
    st
  else
    let newCost : Nat := (lookupC st.current st.cost).getD 0 + 1
    let doPush : Bool :=
      match lookupC nb st.cost with
      | none => true
      | some g => decide (newCost < g)
    if doPush then
      { st with
        cost := (nb, newCost) :: st.cost,
        openl := st.openl ++ [(newCost + heuristic nb endc, nb)],
        came := (nb, some st.current) :: st.came }
    else st

/-- The `astar` loop with the end-cell occupancy exemption of the spec. -/
def astarLoopExempt (pos : List Cell) (endc : Cell) : Nat → AState → Option AState
  | 0, _ => none
  | Nat.succ n, st =>
    match popMin st.openl with
    | none => some st
    | some ((_, cur), rest) =>
      if cur = endc then
        some { st with openl := rest, current := cur }
      else
        astarLoopExempt pos endc n
          (List.foldl (expandOneExempt pos endc)
            { st with openl := rest, current := cur, trace := st.trace ++ [cur] }
            (neighborList cur))

/-- Modelled from the spec: `astar` where the end cell is always eligible
for expansion even when it lies in the occupancy set. -/
def astarExempt (fuel : Nat) (pos : List Cell) (start endc : Cell) : Option (List Cell) :=
  let st0 : AState :=
    ⟨[(heuristic start endc, start)], [(start, none)], [(start, 0)], start, []⟩
  match astarLoopExempt pos endc fuel st0 with
  | none => none
  | some st =>
    match lookupC endc st.came with
    | none => none
    | some _ => reconstruct st.came start fuel st.current

/-! ### Derived predicates -/

/-- A cell passes the successor filter of `astar`: on screen and not in the
occupancy list. -/
def freeCell (pos : List Cell) (c : Cell) : Prop :=
  0 ≤ c.1 ∧ c.1 < WIDTH ∧ 0 ≤ c.2 ∧ c.2 < HEIGHT ∧ c ∉ pos

instance (pos : List Cell) (c : Cell) : Decidable (freeCell pos c) :=
  inferInstanceAs (Decidable (0 ≤ c.1 ∧ c.1 < WIDTH ∧ 0 ≤ c.2 ∧ c.2 < HEIGHT ∧ c ∉ pos))

/-- The wall-collision condition of `check_collision`, on a single cell. -/
def wallHit (c : Cell) : Prop :=
  c.1 < 0 ∨ WIDTH ≤ c.1 ∨ c.2 < 0 ∨ HEIGHT ≤ c.2

instance (c : Cell) : Decidable (wallHit c) :=
  inferInstanceAs (Decidable (c.1 < 0 ∨ WIDTH ≤ c.1 ∨ c.2 < 0 ∨ HEIGHT ≤ c.2))

/-- `b` is an orthogonal one-step (`GRID_SIZE`) neighbor of `a`. -/
def stepAdj (a b : Cell) : Prop :=
  b ∈ neighborList a

instance : DecidableRel stepAdj := fun a b =>
  inferInstanceAs (Decidable (b ∈ neighborList a))

/-- Every two consecutive cells of the list are orthogonal one-step
neighbors. -/
def chainAdj : List Cell → Prop
  | [] => True
  | [_] => True
  | a :: b :: rest => stepAdj a b ∧ chainAdj (b :: rest)

/-- `chainAdj` is decidable by structural recursion. -/
def chainAdjDec : (p : List Cell) → Decidable (chainAdj p)
  | [] => .isTrue trivial
  | [_] => .isTrue trivial
  | _ :: b :: rest => @instDecidableAnd _ _ inferInstance (chainAdjDec (b :: rest))

instance (p : List Cell) : Decidable (chainAdj p) := chainAdjDec p

/-- A valid path for `(pos, start, endc)`: runs from `start` to `endc`,
moves one grid step at a time, and every cell after the start passes the
successor filter. -/
def validFreePath (pos : List Cell) (start endc : Cell) (p : List Cell) : Prop :=
  p.head? = some start ∧ p.getLast? = some endc ∧ chainAdj p ∧
  ∀ c ∈ p.drop 1, freeCell pos c

instance (pos : List Cell) (start endc : Cell) (p : List Cell) :
    Decidable (validFreePath pos start endc p) :=
  inferInstanceAs (Decidable
    (p.head? = some start ∧ p.getLast? = some endc ∧ chainAdj p ∧
      ∀ c ∈ p.drop 1, freeCell pos c))

/-- Invariant of the `came_from` map: every recorded parent step is a legal
one-step move into a filter-passing cell. -/
def CameOK (pos : List Cell) (came : List (Cell × Option Cell)) : Prop :=
  ∀ c p, lookupC c came = some (some p) → stepAdj p c ∧ freeCell pos c

/-- Invariant tying the frontier to the `came_from` map: while the loop
runs, an `end` that has been discovered still has a frontier entry. -/
def FrontOK (endc : Cell) (st : AState) : Prop :=
  lookupC endc st.came ≠ none → ∃ pr, (pr, endc) ∈ st.openl

/-- The occupancy list of the sealed-room scenario: a wall of body cells
around the free cells with `80 < x < 160`, `80 < y < 160`, plus the body
cell (140, 140) inside the room. -/
def wallRoom : List Cell :=
  [(80, 80), (80, 100), (80, 120), (80, 140), (80, 160), (100, 80), (100, 160),
   (120, 80), (120, 160), (140, 80), (140, 140), (140, 160), (160, 80), (160, 100),
   (160, 120), (160, 140), (160, 160)]

/-! ### Helper lemmas -/

theorem containsC_iff (pos : List Cell) (c : Cell) : containsC pos c = true ↔ c ∈ pos := by
  induction pos with
  | nil => simp [containsC]
  | cons k rest ih =>
    by_cases h : c = k
    · simp [containsC, h]
    · simp [containsC, h, ih]

theorem freeCell_of_not_blocked (pos : List Cell) (c : Cell)
    (h : ¬ (c.1 < 0 ∨ WIDTH ≤ c.1 ∨ c.2 < 0 ∨ HEIGHT ≤ c.2 ∨ containsC pos c = true)) :
    freeCell pos c := by
  push_neg at h
  refine ⟨by omega, by omega, by omega, by omega, ?_⟩
  intro hmem
  exact absurd ((containsC_iff pos c).mpr hmem) h.2.2.2.2

theorem entryLe_refl (e : Entry) : entryLe e e := by
  unfold entryLe; omega

theorem entryLe_of_lt (e f : Entry) (h : entryLt e f) : entryLe e f := by
  unfold entryLt at h; unfold entryLe; omega

theorem entryLe_of_not_lt (e f : Entry) (h : ¬ entryLt f e) : entryLe e f := by
  unfold entryLt at h; unfold entryLe; omega

theorem entryLe_trans (e f g : Entry) (h₁ : entryLe e f) (h₂ : entryLe f g) : entryLe e g := by
  unfold entryLe at h₁ h₂ ⊢; omega

theorem popMin_eq_none_iff (l : List Entry) : popMin l = none ↔ l = [] := by
  cases l with
  | nil => simp [popMin]
  | cons e rest =>
    simp only [popMin]
    cases h : popMin rest with
    | none => simp
    | some m =>
      obtain ⟨m₁, rest₁⟩ := m
      by_cases hlt : entryLt m₁ e <;> simp [hlt]

theorem popMin_mem (l : List Entry) (e : Entry) (rest : List Entry)
    (h : popMin l = some (e, rest)) : e ∈ l := by
  induction l generalizing e rest with
  | nil => simp [popMin] at h
  | cons a tail ih =>
    simp only [popMin] at h
    cases htail : popMin tail with
    | none =>
      rw [htail] at h
      simp only [Option.some.injEq, Prod.mk.injEq] at h
      simp [h.1]
    | some m =>
      obtain ⟨m₁, rest₁⟩ := m
      rw [htail] at h
      by_cases hlt : entryLt m₁ a
      · simp only [hlt, if_true, Option.some.injEq, Prod.mk.injEq] at h
        exact List.mem_cons_of_mem a (h.1 ▸ ih m₁ rest₁ htail)
      · simp only [hlt, if_false, Option.some.injEq, Prod.mk.injEq] at h
        simp [h.1]

theorem popMin_cover (l : List Entry) (e : Entry) (rest : List Entry)
    (h : popMin l = some (e, rest)) : ∀ f ∈ l, f = e ∨ f ∈ rest := by
  induction l generalizing e rest with
  | nil => simp [popMin] at h
  | cons a tail ih =>
    simp only [popMin] at h
    cases htail : popMin tail with
    | none =>
      rw [htail] at h
      simp only [Option.some.injEq, Prod.mk.injEq] at h
      intro f hf
      rcases List.mem_cons.mp hf with hfa | hft
      · exact Or.inl (hfa.trans h.1)
      · rw [(popMin_eq_none_iff tail).mp htail] at hft
        simp at hft
    | some m =>
      obtain ⟨m₁, rest₁⟩ := m
      rw [htail] at h
      by_cases hlt : entryLt m₁ a
      · simp only [hlt, if_true, Option.some.injEq, Prod.mk.injEq] at h
        intro f hf
        rcases List.mem_cons.mp hf with hfa | hft
        · exact Or.inr (h.2 ▸ (hfa ▸ List.mem_cons_self a rest₁))
        · rcases ih m₁ rest₁ htail f hft with h₁ | h₂
          · exact Or.inl (h₁.trans h.1)
          · exact Or.inr (h.2 ▸ List.mem_cons_of_mem a h₂)
      · simp only [hlt, if_false, Option.some.injEq, Prod.mk.injEq] at h
        intro f hf
        rcases List.mem_cons.mp hf with hfa | hft
        · exact Or.inl (hfa.trans h.1)
        · exact Or.inr (h.2 ▸ hft)

theorem popMin_le (l : List Entry) (e : Entry) (rest : List Entry)
    (h : popMin l = some (e, rest)) : ∀ f ∈ l, entryLe e f := by
  induction l generalizing e rest with
  | nil => simp [popMin] at h
  | cons a tail ih =>
    simp only [popMin] at h
    cases htail : popMin tail with
    | none =>
      rw [htail] at h
      simp only [Option.some.injEq, Prod.mk.injEq] at h
      intro f hf
      rcases List.mem_cons.mp hf with hfa | hft
      · exact hfa ▸ h.1 ▸ entryLe_refl a
      · rw [(popMin_eq_none_iff tail).mp htail] at hft
        simp at hft
    | some m =>
      obtain ⟨m₁, rest₁⟩ := m
      rw [htail] at h
      by_cases hlt : entryLt m₁ a
      · simp only [hlt, if_true, Option.some.injEq, Prod.mk.injEq] at h
        intro f hf
        rcases List.mem_cons.mp hf with hfa | hft
        · exact h.1 ▸ hfa ▸ entryLe_of_lt m₁ a hlt
        · exact h.1 ▸ ih m₁ rest₁ htail f hft
      · simp only [hlt, if_false, Option.some.injEq, Prod.mk.injEq] at h
        intro f hf
        rcases List.mem_cons.mp hf with hfa | hft
        · exact hfa ▸ h.1 ▸ entryLe_refl a
        · exact h.1 ▸ entryLe_trans a m₁ f (entryLe_of_not_lt a m₁ hlt) (ih m₁ rest₁ htail f hft)

theorem expandOne_cases (pos : List Cell) (endc : Cell) (st : AState) (nb : Cell) :
    expandOne pos endc st nb = st ∨
    (¬ (nb.1 < 0 ∨ WIDTH ≤ nb.1 ∨ nb.2 < 0 ∨ HEIGHT ≤ nb.2 ∨ containsC pos nb = true) ∧
     ∃ w : Nat,
       expandOne pos endc st nb =
         { st with
           cost := (nb, w) :: st.cost,
           openl := st.openl ++ [(w + heuristic nb endc, nb)],
           came := (nb, some st.current) :: st.came } ∧
       (∀ g₀, lookupC nb st.cost = some g₀ → w < g₀)) := by
  unfold expandOne
  by_cases hb : nb.1 < 0 ∨ WIDTH ≤ nb.1 ∨ nb.2 < 0 ∨ HEIGHT ≤ nb.2 ∨ containsC pos nb = true
  · rw [if_pos hb]; exact Or.inl rfl
  · rw [if_neg hb]
    cases hg : lookupC nb st.cost with
    | none =>
      refine Or.inr ⟨hb, (lookupC st.current st.cost).getD 0 + 1, ?_, ?_⟩
      · simp [hg]
      · intro g₀ h₀
        exact absurd h₀ (by simp)
    | some g =>
      by_cases hlt : (lookupC st.current st.cost).getD 0 + 1 < g
      · refine Or.inr ⟨hb, (lookupC st.current st.cost).getD 0 + 1, ?_, ?_⟩
        · simp [hg, hlt]
        · intro g₀ h₀
          cases h₀
          exact hlt
      · refine Or.inl ?_
        simp [hg, hlt]

theorem expandOne_current (pos : List Cell) (endc : Cell) (st : AState) (nb : Cell) :
    (expandOne pos endc st nb).current = st.current := by
  rcases expandOne_cases pos endc st nb with h | ⟨-, w, h, -⟩ <;> rw [h]

theorem cameOK_expandOne (pos : List Cell) (endc : Cell) (st : AState) (nb : Cell)
    (hC : CameOK pos st.came) (hadj : stepAdj st.current nb) :
    CameOK pos (expandOne pos endc st nb).came := by
  rcases expandOne_cases pos endc st nb with h | ⟨hb, w, h, -⟩
  · rw [h]; exact hC
  · rw [h]
    intro c p hcp
    by_cases hc : c = nb
    · subst hc
      simp only [lookupC, if_pos, Option.some.injEq] at hcp
      rw [← hcp]
      exact ⟨hadj, freeCell_of_not_blocked pos c hb⟩
    · simp only [lookupC, hc, if_false] at hcp
      exact hC c p hcp

theorem frontOK_expandOne (pos : List Cell) (endc : Cell) (st : AState) (nb : Cell)
    (hF : FrontOK endc st) : FrontOK endc (expandOne pos endc st nb) := by
  rcases expandOne_cases pos endc st nb with h | ⟨hb, w, h, -⟩
  · rw [h]; exact hF
  · rw [h]
    intro hne
    by_cases hc : endc = nb
    · refine ⟨w + heuristic nb endc, ?_⟩
      simp [hc]
    · have hne₁ : lookupC endc st.came ≠ none := by
        simpa [lookupC, hc] using hne
      obtain ⟨pr, hpr⟩ := hF hne₁
      exact ⟨pr, List.mem_append_left _ hpr⟩

theorem expandOne_no_end (pos : List Cell) (endc : Cell) (st : AState) (nb : Cell)
    (hocc : endc ∈ pos) (hne : lookupC endc st.came = none) :
    lookupC endc (expandOne pos endc st nb).came = none := by
  rcases expandOne_cases pos endc st nb with h | ⟨hb, w, h, -⟩
  · rw [h]; exact hne
  · rw [h]
    have hnb : endc ≠ nb := by
      intro he
      exact hb (Or.inr (Or.inr (Or.inr (Or.inr ((containsC_iff pos nb).mpr (he ▸ hocc))))))
    simpa [lookupC, hnb] using hne

theorem cameOK_foldl (pos : List Cell) (endc : Cell) :
    ∀ (nbs : List Cell) (st : AState), CameOK pos st.came →
      (∀ nb ∈ nbs, stepAdj st.current nb) →
      CameOK pos (List.foldl (expandOne pos endc) st nbs).came := by
  intro nbs
  induction nbs with
  | nil => intro st hC _; exact hC
  | cons nb rest ih =>
    intro st hC hadj
    simp only [List.foldl_cons]
    apply ih
    · exact cameOK_expandOne pos endc st nb hC (hadj nb (List.mem_cons_self nb rest))
    · intro x hx
      rw [expandOne_current]
      exact hadj x (List.mem_cons_of_mem nb hx)

theorem frontOK_foldl (pos : List Cell) (endc : Cell) :
    ∀ (nbs : List Cell) (st : AState), FrontOK endc st →
      FrontOK endc (List.foldl (expandOne pos endc) st nbs) := by
  intro nbs
  induction nbs with
  | nil => intro st hF; exact hF
  | cons nb rest ih =>
    intro st hF
    simp only [List.foldl_cons]
    exact ih _ (frontOK_expandOne pos endc st nb hF)

theorem no_end_foldl (pos : List Cell) (endc : Cell) (hocc : endc ∈ pos) :
    ∀ (nbs : List Cell) (st : AState), lookupC endc st.came = none →
      lookupC endc (List.foldl (expandOne pos endc) st nbs).came = none := by
  intro nbs
  induction nbs with
  | nil => intro st h; exact h
  | cons nb rest ih =>
    intro st h
    simp only [List.foldl_cons]
    exact ih _ (expandOne_no_end pos endc st nb hocc h)

theorem astarLoop_exit (pos : List Cell) (endc : Cell) :
    ∀ (n : Nat) (st st₁ : AState), astarLoop pos endc n st = some st₁ →
      CameOK pos st.came → FrontOK endc st →
      CameOK pos st₁.came ∧ (lookupC endc st₁.came ≠ none → st₁.current = endc) := by
  intro n
  induction n with
  | zero => intro st st₁ h; simp [astarLoop] at h
  | succ n ih =>
    intro st st₁ h hC hF
    rw [astarLoop] at h
    cases hp : popMin st.openl with
    | none =>
      rw [hp] at h
      simp only [Option.some.injEq] at h
      subst h
      refine ⟨hC, fun hne => ?_⟩
      obtain ⟨pr, hpr⟩ := hF hne
      rw [(popMin_eq_none_iff _).mp hp] at hpr
      simp at hpr
    | some x =>
      obtain ⟨⟨pr, cur⟩, rest⟩ := x
      rw [hp] at h
      dsimp only at h
      by_cases hcur : cur = endc
      · rw [if_pos hcur] at h
        simp only [Option.some.injEq] at h
        subst h
        exact ⟨hC, fun _ => hcur⟩
      · rw [if_neg hcur] at h
        refine ih _ _ h ?_ ?_
        · apply cameOK_foldl
          · exact hC
          · intro nb hnb
            exact hnb
        · apply frontOK_foldl
          intro hne
          obtain ⟨pr₀, hpr₀⟩ := hF hne
          rcases popMin_cover st.openl (pr, cur) rest hp (pr₀, endc) hpr₀ with heq | hmem
          · exact absurd (congrArg Prod.snd heq) (by simpa using fun he => hcur he.symm)
          · exact ⟨pr₀, hmem⟩

theorem astarLoop_no_end (pos : List Cell) (endc : Cell) (hocc : endc ∈ pos) :
    ∀ (n : Nat) (st st₁ : AState), astarLoop pos endc n st = some st₁ →
      lookupC endc st.came = none → lookupC endc st₁.came = none := by
  intro n
  induction n with
  | zero => intro st st₁ h; simp [astarLoop] at h
  | succ n ih =>
    intro st st₁ h hne
    rw [astarLoop] at h
    cases hp : popMin st.openl with
    | none =>
      rw [hp] at h
      simp only [Option.some.injEq] at h
      subst h
      exact hne
    | some x =>
      obtain ⟨⟨pr, cur⟩, rest⟩ := x
      rw [hp] at h
      dsimp only at h
      by_cases hcur : cur = endc
      · rw [if_pos hcur] at h
        simp only [Option.some.injEq] at h
        subst h
        exact hne
      · rw [if_neg hcur] at h
        exact ih _ _ h (no_end_foldl pos endc hocc _ _ hne)

theorem chainAdj_append_one : ∀ (q : List Cell) (prev cur : Cell), chainAdj q →
    q.getLast? = some prev → stepAdj prev cur → chainAdj (q ++ [cur])
  | [], _, _ => by
    intro _ h _
    simp at h
  | [a], prev, cur => by
    intro _ h hadj
    simp only [List.getLast?_singleton, Option.some.injEq] at h
    subst h
    exact ⟨hadj, trivial⟩
  | a :: b :: t, prev, cur => by
    intro hch hlast hadj
    exact ⟨hch.1, chainAdj_append_one (b :: t) prev cur hch.2 (by rw [List.getLast?_cons_cons] at hlast; exact hlast) hadj⟩

theorem reconstruct_sound (came : List (Cell × Option Cell)) (pos : List Cell) (start : Cell)
    (hC : CameOK pos came) :
    ∀ (n : Nat) (cur : Cell) (p : List Cell), reconstruct came start n cur = some p →
      p ≠ [] ∧ p.head? = some start ∧ p.getLast? = some cur ∧
      chainAdj p ∧ (∀ c ∈ p.drop 1, freeCell pos c) ∧ (cur = start → p = [start]) := by
  intro n
  induction n with
  | zero => intro cur p h; simp [reconstruct] at h
  | succ n ih =>
    intro cur p h
    rw [reconstruct] at h
    by_cases hcs : cur = start
    · rw [if_pos hcs] at h
      simp only [Option.some.injEq] at h
      subst h
      exact ⟨by simp, by simp, by simp [hcs], trivial, by simp, fun _ => rfl⟩
    · rw [if_neg hcs] at h
      cases hl : lookupC cur came with
      | none => rw [hl] at h; simp at h
      | some v =>
        cases v with
        | none => rw [hl] at h; simp at h
        | some prev =>
          rw [hl] at h
          dsimp only at h
          rw [Option.map_eq_some'] at h
          obtain ⟨q, hq, hp⟩ := h
          obtain ⟨hne, hhead, hlast, hchain, hfree, -⟩ := ih prev q hq
          have hadj : stepAdj prev cur ∧ freeCell pos cur := hC cur prev hl
          obtain ⟨a, t, rfl⟩ := List.exists_cons_of_ne_nil hne
          subst hp
          refine ⟨by simp, ?_, ?_, ?_, ?_, fun hcs₁ => absurd hcs₁ hcs⟩
          · simpa using hhead
          · show ((a :: t) ++ [cur]).getLast? = some cur
            rw [List.getLast?_append_cons]
            rfl
          · exact chainAdj_append_one (a :: t) prev cur hchain hlast hadj.1
          · intro c hc
            simp only [List.cons_append, List.drop_succ_cons, List.drop_zero] at hc
            rcases List.mem_append.mp hc with hct | hcc
            · exact hfree c (by simpa using hct)
            · simp only [List.mem_singleton] at hcc
              subst hcc
              exact hadj.2

theorem astar_sound (fuel : Nat) (pos : List Cell) (start endc : Cell) (p : List Cell)
    (h : astar fuel pos start endc = some p) :
    p.head? = some start ∧ p.getLast? = some endc ∧ chainAdj p ∧
    (∀ c ∈ p.drop 1, freeCell pos c) ∧ (start = endc → p = [start]) := by
  rw [astar] at h
  cases hl : astarLoop pos endc fuel
      ⟨[(heuristic start endc, start)], [(start, none)], [(start, 0)], start, []⟩ with
  | none => rw [hl] at h; simp at h
  | some st =>
    rw [hl] at h
    dsimp only at h
    cases he : lookupC endc st.came with
    | none => rw [he] at h; simp at h
    | some v =>
      rw [he] at h
      have hC0 : CameOK pos [(start, (none : Option Cell))] := by
        intro c q hcq
        by_cases hc : c = start
        · simp [lookupC, hc] at hcq
        · simp [lookupC, hc] at hcq
      have hF0 : FrontOK endc
          ⟨[(heuristic start endc, start)], [(start, none)], [(start, 0)], start, []⟩ := by
        intro hne
        by_cases hc : endc = start
        · exact ⟨heuristic start endc, by simp [hc]⟩
        · simp [FrontOK, lookupC, hc] at hne
      obtain ⟨hC, hcur⟩ := astarLoop_exit pos endc fuel _ st hl hC0 hF0
      have hce : st.current = endc := hcur (by rw [he]; simp)
      obtain ⟨-, hhead, hlast, hchain, hfree, hsingle⟩ :=
        reconstruct_sound st.came pos start hC fuel st.current p h
      exact ⟨hhead, hce ▸ hlast, hchain, hfree, fun hse => hsingle (hce.trans hse.symm)⟩

theorem expandOne_cost_other (pos : List Cell) (endc : Cell) (st : AState) (nb c : Cell)
    (hc : c ≠ nb) : lookupC c (expandOne pos endc st nb).cost = lookupC c st.cost := by
  rcases expandOne_cases pos endc st nb with h | ⟨-, w, h, -⟩
  · rw [h]
  · rw [h]
    simp [lookupC, hc]

theorem expandOne_entry (pos : List Cell) (endc : Cell) (st : AState) (nb : Cell)
    (pr : Nat) (c : Cell) (h : (pr, c) ∈ (expandOne pos endc st nb).openl) :
    (pr, c) ∈ st.openl ∨
      (c = nb ∧ freeCell pos nb ∧
        ∃ g, lookupC nb (expandOne pos endc st nb).cost = some g ∧
          pr = g + heuristic nb endc ∧ ∀ g₀, lookupC nb st.cost = some g₀ → g < g₀) := by
  rcases expandOne_cases pos endc st nb with he | ⟨hb, w, he, himp⟩
  · rw [he] at h
    exact Or.inl h
  · rw [he] at h
    rcases List.mem_append.mp h with h₁ | h₂
    · exact Or.inl h₁
    · simp only [List.mem_singleton, Prod.mk.injEq] at h₂
      refine Or.inr ⟨h₂.2, freeCell_of_not_blocked pos nb hb, w, ?_, h₂.1, himp⟩
      rw [he]
      simp [lookupC]

theorem foldl_cost_other (pos : List Cell) (endc : Cell) :
    ∀ (nbs : List Cell) (st : AState) (c : Cell), c ∉ nbs →
      lookupC c (List.foldl (expandOne pos endc) st nbs).cost = lookupC c st.cost := by
  intro nbs
  induction nbs with
  | nil => intro st c _; rfl
  | cons nb rest ih =>
    intro st c hc
    simp only [List.foldl_cons]
    rw [ih _ c (fun h => hc (List.mem_cons_of_mem nb h))]
    exact expandOne_cost_other pos endc st nb c (fun h => hc (h ▸ List.mem_cons_self nb rest))

theorem foldl_expandOne_entry (pos : List Cell) (endc : Cell) :
    ∀ (nbs : List Cell) (st : AState) (pr : Nat) (c : Cell), nbs.Nodup →
      (pr, c) ∈ (List.foldl (expandOne pos endc) st nbs).openl →
      (pr, c) ∈ st.openl ∨
        (freeCell pos c ∧
          ∃ g, lookupC c (List.foldl (expandOne pos endc) st nbs).cost = some g ∧
            pr = g + heuristic c endc ∧ ∀ g₀, lookupC c st.cost = some g₀ → g < g₀) := by
  intro nbs
  induction nbs with
  | nil => intro st pr c _ h; exact Or.inl h
  | cons nb rest ih =>
    intro st pr c hnd h
    simp only [List.foldl_cons] at h ⊢
    have hnd₁ : rest.Nodup := (List.nodup_cons.mp hnd).2
    have hnbr : nb ∉ rest := (List.nodup_cons.mp hnd).1
    rcases ih (expandOne pos endc st nb) pr c hnd₁ h with h₁ | ⟨hfree, g, hg, hpr, himp⟩
    · rcases expandOne_entry pos endc st nb pr c h₁ with h₂ | ⟨hcnb, hfree, g, hg, hpr, himp⟩
      · exact Or.inl h₂
      · subst hcnb
        refine Or.inr ⟨hfree, g, ?_, hpr, himp⟩
        rw [foldl_cost_other pos endc rest (expandOne pos endc st c) c hnbr]
        exact hg
    · refine Or.inr ⟨hfree, g, hg, hpr, ?_⟩
      intro g₀ h₀
      by_cases hcnb : c = nb
      · subst hcnb
        rcases expandOne_cases pos endc st c with he | ⟨-, w, he, himp₂⟩
        · rw [he] at himp
          exact himp g₀ h₀
        · have hw : lookupC c (expandOne pos endc st c).cost = some w := by
            rw [he]
            simp [lookupC]
          exact lt_trans (himp w hw) (himp₂ g₀ h₀)
      · rw [← expandOne_cost_other pos endc st nb c hcnb] at h₀
        exact himp g₀ h₀

theorem neighborList_nodup (c : Cell) : (neighborList c).Nodup := by
  obtain ⟨x, y⟩ := c
  simp [neighborList, GRID_SIZE, List.nodup_cons, Prod.ext_iff]
  omega

/-! ### Claim theorems -/

/-- C1: the claim says the path returned by `astar` is always shortest in
step count.  It is not: `cost_so_far` counts 1 per move while `heuristic`
measures pixels (20 per move), so the priority `new_cost + heuristic`
overweights the heuristic twentyfold and the search is not admissible.  With
the single occupied cell (20, 60), from (40, 0) to (20, 80) the source
returns a 7-step path although a valid 5-step path exists. -/
theorem astar_returns_suboptimal_path :
    astar 50 [((20 : Int), (60 : Int))] (40, 0) (20, 80) =
      some [(40, 0), (20, 0), (20, 20), (20, 40), (0, 40), (0, 60), (0, 80), (20, 80)] ∧
    validFreePath [((20 : Int), (60 : Int))] (40, 0) (20, 80)
      [(40, 0), (40, 20), (40, 40), (40, 60), (40, 80), (20, 80)] ∧
    ([(40, 0), (40, 20), (40, 40), (40, 60), (40, 80), (20, 80)] : List Cell).length <
      ([(40, 0), (20, 0), (20, 20), (20, 40), (0, 40), (0, 60), (0, 80), (20, 80)] :
        List Cell).length :=
  ⟨by decide, by decide, by decide⟩

/-- C2 (counterexample): the source's successor filter has no exemption for
the end cell.  In the sealed room, with the end cell (140, 140) contained in
the occupancy set, `astar` returns no path, while the spec-modelled variant
with the exemption reaches the end. -/
theorem astar_occupied_end_unreachable :
    astar 50 wallRoom (100, 100) (140, 140) = none ∧
    astarExempt 50 wallRoom (100, 100) (140, 140) =
      some [(100, 100), (100, 120), (100, 140), (120, 140), (140, 140)] ∧
    ((140 : Int), (140 : Int)) ∈ wallRoom :=
  ⟨by decide, by decide, by decide⟩

/-- C2 (amended): during the astar search a successor cell is skipped
whenever it is out of bounds or contained in the agent's body, with no
exemption for the end cell; consequently an end cell contained in the
occupancy set and different from the start is never reached and the search
returns no path, for any amount of fuel. -/
theorem astar_never_reaches_occupied_end (fuel : Nat) (pos : List Cell) (start endc : Cell)
    (hocc : endc ∈ pos) (hne : endc ≠ start) :
    astar fuel pos start endc = none := by
  rw [astar]
  cases hl : astarLoop pos endc fuel
      ⟨[(heuristic start endc, start)], [(start, none)], [(start, 0)], start, []⟩ with
  | none => rfl
  | some st =>
    dsimp only
    have h0 : lookupC endc ([(start, (none : Option Cell))]) = none := by
      simp [lookupC, hne]
    rw [astarLoop_no_end pos endc hocc fuel _ st hl h0]

/-- Witness for C2 (amended) at the sealed-room input. -/
theorem astar_never_reaches_occupied_end_witness :
    astar 77 wallRoom (100, 100) (140, 140) = none :=
  astar_never_reaches_occupied_end 77 wallRoom (100, 100) (140, 140) (by decide) (by decide)

/-- C3 (counterexample): frontier ties are not broken by insertion order.
With the single occupied cell (100, 120), from (100, 100) to (100, 160), the
three first successors are inserted with equal priority 81 in the order
(120, 100), (80, 100), (100, 80); the source (via the `heapq` tuple order)
pops (80, 100) first and commits to the left-hand detour, while the
spec-modelled insertion-order frontier pops (120, 100) first and returns the
mirrored right-hand path. -/
theorem astar_ties_not_insertion_order :
    astar 60 [((100 : Int), (120 : Int))] (100, 100) (100, 160) =
      some [(100, 100), (80, 100), (80, 120), (80, 140), (80, 160), (100, 160)] ∧
    astarStable 60 [((100 : Int), (120 : Int))] (100, 100) (100, 160) =
      some [(100, 100), (120, 100), (120, 120), (120, 140), (100, 140), (100, 160)] ∧
    ([(100, 100), (80, 100), (80, 120), (80, 140), (80, 160), (100, 160)] : List Cell) ≠
      [(100, 100), (120, 100), (120, 120), (120, 140), (100, 140), (100, 160)] :=
  ⟨by decide, by decide, by decide⟩

/-- C3 (amended): frontier entries are ordered by `cost_so_far + heuristic`,
and whenever two entries have equal priority the one whose cell is smaller in
the lexicographic coordinate order (x, then y) is popped first: the popped
entry is the least of the whole frontier under the tuple order, regardless of
insertion order. -/
theorem popMin_pops_lex_least (l : List Entry) (e : Entry) (rest : List Entry)
    (h : popMin l = some (e, rest)) : e ∈ l ∧ ∀ f ∈ l, entryLe e f :=
  ⟨popMin_mem l e rest h, popMin_le l e rest h⟩

/-- Witness for C3 (amended): on a frontier whose last-inserted entry
(3, (20, 40)) ties the priority of an earlier entry, that entry is popped
and is below both others. -/
theorem popMin_pops_lex_least_witness :
    ((3, ((20 : Int), (40 : Int))) : Entry) ∈
        ([(5, (0, 0)), (3, (40, 20)), (3, (20, 40))] : List Entry) ∧
      entryLe (3, (20, 40)) (5, (0, 0)) ∧ entryLe (3, (20, 40)) (3, (40, 20)) := by
  have h := popMin_pops_lex_least [(5, (0, 0)), (3, (40, 20)), (3, (20, 40))]
      (3, (20, 40)) [(5, (0, 0)), (3, (40, 20))] (by decide)
  exact ⟨h.1, h.2 (5, (0, 0)) (by decide), h.2 (3, (40, 20)) (by decide)⟩

/-- C4 (counterexample): a cell can be expanded more than once.  In this run
the expansion trace contains the cell (80, 40) twice (and it is not the end
cell, so both pops generated successors): after its first expansion it is
rediscovered with a strictly cheaper cost, re-enqueued, and expanded again. -/
theorem astar_expands_cell_twice :
    astarTrace 50 [((40 : Int), (0 : Int)), (40, 20), (40, 40), (60, 60), (80, 60)]
        (80, 0) (0, 60) =
      some [(80, 0), (60, 0), (60, 20), (60, 40), (80, 40), (80, 20), (80, 40), (100, 40),
        (100, 60), (100, 40), (100, 80), (80, 80), (60, 80), (40, 80), (20, 80), (0, 80)] ∧
    List.count ((80 : Int), (40 : Int))
      [((80 : Int), (0 : Int)), (60, 0), (60, 20), (60, 40), (80, 40), (80, 20), (80, 40),
        (100, 40), (100, 60), (100, 40), (100, 80), (80, 80), (60, 80), (40, 80), (20, 80),
        (0, 80)] = 2 ∧
    ((80 : Int), (40 : Int)) ≠ ((0 : Int), (60 : Int)) :=
  ⟨by decide, by decide, by decide⟩

/-- C4 (amended): within one expansion of a cell, a successor is enqueued on
the frontier only when it is new or a strictly cheaper cost to reach it than
its best known cost is found: every frontier entry added by `expand` records
a cost strictly below the cell's previous best (but a cell may be expanded
more than once over a whole run). -/
theorem expand_enqueues_only_strict_improvements (pos : List Cell) (endc : Cell) (st : AState)
    (pr : Nat) (c : Cell) (h : (pr, c) ∈ (expand pos endc st).openl) :
    (pr, c) ∈ st.openl ∨
      (freeCell pos c ∧
        ∃ g, lookupC c (expand pos endc st).cost = some g ∧
          pr = g + heuristic c endc ∧ ∀ g₀, lookupC c st.cost = some g₀ → g < g₀) := by
  unfold expand at h ⊢
  exact foldl_expandOne_entry pos endc (neighborList st.current) st pr c
    (neighborList_nodup st.current) h

/-- Witness for C4 (amended) on a one-cell cost map: the freshly enqueued
entry (81, (120, 100)) records the new cost of its cell. -/
theorem expand_enqueues_only_strict_improvements_witness :
    ((81, ((120 : Int), (100 : Int))) : Entry) ∈
        (⟨[], [], [(((100 : Int), (100 : Int)), 0)], (100, 100), []⟩ : AState).openl ∨
      (freeCell [] (120, 100) ∧
        ∃ g, lookupC (120, 100)
            (expand [] (200, 100)
              ⟨[], [], [(((100 : Int), (100 : Int)), 0)], (100, 100), []⟩).cost = some g ∧
          81 = g + heuristic (120, 100) (200, 100) ∧
          ∀ g₀, lookupC (120, 100)
              (⟨[], [], [(((100 : Int), (100 : Int)), 0)], (100, 100), []⟩ : AState).cost =
                some g₀ → g < g₀) :=
  expand_enqueues_only_strict_improvements [] (200, 100)
    ⟨[], [], [(((100 : Int), (100 : Int)), 0)], (100, 100), []⟩ 81 (120, 100) (by decide)

/-- C5: whenever `astar` returns a path, its first element is the start, its
last element is the end, consecutive cells are orthogonal one-step neighbors,
no interior cell lies in the occupancy list, and when start = end the path is
exactly `[start]`. -/
theorem astar_path_structure (fuel : Nat) (pos : List Cell) (start endc : Cell)
    (p : List Cell) (h : astar fuel pos start endc = some p) :
    p.head? = some start ∧ p.getLast? = some endc ∧ chainAdj p ∧
    (∀ c ∈ (p.drop 1).dropLast, c ∉ pos) ∧ (start = endc → p = [start]) := by
  obtain ⟨h1, h2, h3, h4, h5⟩ := astar_sound fuel pos start endc p h
  refine ⟨h1, h2, h3, ?_, h5⟩
  intro c hc
  exact (h4 c (List.mem_of_mem_dropLast hc)).2.2.2.2

/-- Witness for C5 on a two-cell path next to a one-segment body. -/
theorem astar_path_structure_witness :
    ([((100 : Int), (100 : Int)), (120, 100)] : List Cell).head? =
        some ((100 : Int), (100 : Int)) ∧
      ([((100 : Int), (100 : Int)), (120, 100)] : List Cell).getLast? =
        some ((120 : Int), (100 : Int)) ∧
      chainAdj [((100 : Int), (100 : Int)), (120, 100)] ∧
      (∀ c ∈ (([((100 : Int), (100 : Int)), (120, 100)] : List Cell).drop 1).dropLast,
        c ∉ [((100 : Int), (100 : Int))]) ∧
      (((100 : Int), (100 : Int)) = ((120 : Int), (100 : Int)) →
        [((100 : Int), (100 : Int)), (120, 100)] = [((100 : Int), (100 : Int))]) :=
  astar_path_structure 20 [((100 : Int), (100 : Int))] (100, 100) (120, 100)
    [(100, 100), (120, 100)] (by decide)

/-- C8: `check_collision` returns true exactly when the head coordinate is
below 0 or at/above the screen extent, or the head equals a segment at a
later index; in particular a head at x = -1 or at x equal to the extent
collides, and a head equal to any other segment collides. -/
theorem check_collision_iff (hd : Cell) (rest : List Cell) :
    (check_collision (hd :: rest) = some true ↔
      hd.1 < 0 ∨ WIDTH ≤ hd.1 ∨ hd.2 < 0 ∨ HEIGHT ≤ hd.2 ∨ hd ∈ rest) ∧
    (∀ (y : Int) (rest₁ : List Cell), check_collision ((-1, y) :: rest₁) = some true) ∧
    (∀ (y : Int) (rest₁ : List Cell), check_collision ((WIDTH, y) :: rest₁) = some true) := by
  refine ⟨by simp [check_collision, decide_eq_true_eq, or_assoc], ?_, ?_⟩
  · intro y rest₁
    simp [check_collision]
  · intro y rest₁
    simp [check_collision]

/-- C6: when the head reaches the target this tick (`next = food`), the
number of body segments and the score both grow by exactly one and a new
target is generated from the sampling stream; when it does not, the segment
count is unchanged (new head inserted, tail removed). -/
theorem move_growth (fuel : Nat) (stream : Nat → Cell) (s s₁ : Snake) (start : Cell)
    (rest p : List Cell) (nxt : Cell)
    (hpos : s.position = start :: rest)
    (hpath : astar fuel s.position start s.food = some p)
    (hlen : 2 ≤ p.length) (hnxt : p.get? 1 = some nxt)
    (hmv : move fuel stream s = some s₁) :
    (nxt = s.food →
      s₁.position.length = s.position.length + 1 ∧ s₁.score = s.score + 1 ∧
      generate_food stream (nxt :: s.position) fuel 0 = some s₁.food) ∧
    (nxt ≠ s.food → s₁.position.length = s.position.length ∧ s₁.score = s.score) := by
  rw [hpos] at hpath
  rw [move, hpos] at hmv
  dsimp only at hmv
  rw [hpath] at hmv
  dsimp only at hmv
  rw [if_neg (by omega)] at hmv
  rw [hnxt] at hmv
  dsimp only at hmv
  by_cases hf : nxt = s.food
  · rw [if_pos hf] at hmv
    cases hg : generate_food stream (nxt :: (start :: rest)) fuel 0 with
    | none =>
      rw [hg] at hmv
      exact absurd hmv (by simp)
    | some f =>
      rw [hg] at hmv
      simp only [Option.some.injEq] at hmv
      subst hmv
      constructor
      · intro _
        refine ⟨by simp [hpos], rfl, ?_⟩
        rw [hpos]
        exact hg
      · intro hn
        exact absurd hf hn
  · rw [if_neg hf] at hmv
    simp only [Option.some.injEq] at hmv
    subst hmv
    constructor
    · intro hf₁
      exact absurd hf₁ hf
    · intro _
      refine ⟨?_, rfl⟩
      simp [hpos, List.length_dropLast]

/-- Witness for C6 on a growth tick: the head steps onto the food, the
segment count and score go from 1 and 0 to 2 and 1, and the stream's cell
(50, 50) becomes the new food. -/
theorem move_growth_witness :
    (((220 : Int), (200 : Int)) = ((220 : Int), (200 : Int)) →
      ([((220 : Int), (200 : Int)), (200, 200)] : List Cell).length =
          ([((200 : Int), (200 : Int))] : List Cell).length + 1 ∧
        (1 : Nat) = 0 + 1 ∧
        generate_food (fun _ => ((50 : Int), (50 : Int)))
            (((220 : Int), (200 : Int)) :: [((200 : Int), (200 : Int))]) 20 0 =
          some ((50 : Int), (50 : Int))) ∧
    (((220 : Int), (200 : Int)) ≠ ((220 : Int), (200 : Int)) →
      ([((220 : Int), (200 : Int)), (200, 200)] : List Cell).length =
          ([((200 : Int), (200 : Int))] : List Cell).length ∧ (1 : Nat) = 0) :=
  move_growth 20 (fun _ => (50, 50)) ⟨[(200, 200)], (1, 0), 1, (220, 200), 0⟩
    ⟨[(220, 200), (200, 200)], (1, 0), 2, (50, 50), 1⟩ (200, 200) [] [(200, 200), (220, 200)]
    (220, 200) rfl (by decide) (by decide) (by decide) (by decide)

/-- C7: whenever `astar` yields no path or a path with fewer than two cells,
`move` returns the state unchanged — segments, direction, length, food and
score are all identical. -/
theorem move_noop (fuel : Nat) (stream : Nat → Cell) (s : Snake) (start : Cell)
    (rest : List Cell) (hpos : s.position = start :: rest)
    (h : astar fuel s.position start s.food = none ∨
      ∃ p, astar fuel s.position start s.food = some p ∧ p.length < 2) :
    move fuel stream s = some s := by
  rw [move, hpos]
  dsimp only
  rcases h with hn | ⟨p, hp, hlen⟩
  · rw [hpos] at hn
    rw [hn]
  · rw [hpos] at hp
    rw [hp]
    dsimp only
    rw [if_pos hlen]

/-- Witness for C7: a length-1 snake already sitting on its food does not
move (the path is the single cell `[start]`). -/
theorem move_noop_witness :
    move 20 (fun _ => ((0 : Int), (0 : Int)))
        ⟨[((100 : Int), (100 : Int))], (1, 0), 1, (100, 100), 0⟩ =
      some ⟨[((100 : Int), (100 : Int))], (1, 0), 1, (100, 100), 0⟩ :=
  move_noop 20 (fun _ => ((0 : Int), (0 : Int)))
    ⟨[((100 : Int), (100 : Int))], (1, 0), 1, (100, 100), 0⟩ (100, 100) [] rfl
    (Or.inr ⟨[(100, 100)], by decide, by decide⟩)

theorem not_wallHit_of_freeCell (pos : List Cell) (c : Cell) (h : freeCell pos c) :
    ¬ wallHit c := by
  obtain ⟨h1, h2, h3, h4, -⟩ := h
  unfold wallHit
  omega

/-- C9: the segment list is non-empty and the `length` field equals the
number of segments, in the initial state and after every `move`. -/
theorem snake_segments_invariant :
    (∀ (stream : Nat → Cell) (fuel : Nat) (s : Snake), initSnake stream fuel = some s →
      s.position ≠ [] ∧ s.length = s.position.length) ∧
    (∀ (fuel : Nat) (stream : Nat → Cell) (s s₁ : Snake), move fuel stream s = some s₁ →
      s.position ≠ [] → s.length = s.position.length →
      s₁.position ≠ [] ∧ s₁.length = s₁.position.length) := by
  constructor
  · intro stream fuel s h
    rw [initSnake] at h
    cases hg : generate_food stream [(5 * GRID_SIZE, 5 * GRID_SIZE)] fuel 0 with
    | none =>
      rw [hg] at h
      exact absurd h (by simp)
    | some f =>
      rw [hg] at h
      simp only [Option.some.injEq] at h
      subst h
      exact ⟨by simp, rfl⟩
  · intro fuel stream s s₁ hmv hne hinv
    rw [move] at hmv
    cases hpos : s.position with
    | nil => exact absurd hpos hne
    | cons start rest =>
      rw [hpos] at hmv
      dsimp only at hmv
      cases hp : astar fuel (start :: rest) start s.food with
      | none =>
        rw [hp] at hmv
        simp only [Option.some.injEq] at hmv
        subst hmv
        exact ⟨hne, hinv⟩
      | some p =>
        rw [hp] at hmv
        dsimp only at hmv
        by_cases hlen : p.length < 2
        · rw [if_pos hlen] at hmv
          simp only [Option.some.injEq] at hmv
          subst hmv
          exact ⟨hne, hinv⟩
        · rw [if_neg hlen] at hmv
          cases hnx : p.get? 1 with
          | none =>
            rw [hnx] at hmv
            simp only [Option.some.injEq] at hmv
            subst hmv
            exact ⟨hne, hinv⟩
          | some nxt =>
            rw [hnx] at hmv
            dsimp only at hmv
            by_cases hf : nxt = s.food
            · rw [if_pos hf] at hmv
              cases hg : generate_food stream (nxt :: (start :: rest)) fuel 0 with
              | none =>
                rw [hg] at hmv
                exact absurd hmv (by simp)
              | some f =>
                rw [hg] at hmv
                simp only [Option.some.injEq] at hmv
                subst hmv
                refine ⟨by simp, ?_⟩
                simp [hinv, hpos]
            · rw [if_neg hf] at hmv
              simp only [Option.some.injEq] at hmv
              subst hmv
              constructor
              · intro hcon
                have := congrArg List.length hcon
                simp [List.length_dropLast] at this
              · simp [hinv, hpos, List.length_dropLast]

/-- Witness for C9 after a non-growth tick of a one-segment snake. -/
theorem snake_segments_invariant_witness :
    (⟨[((320 : Int), (300 : Int))], (1, 0), 1, (360, 300), 0⟩ : Snake).position ≠ [] ∧
      (⟨[((320 : Int), (300 : Int))], (1, 0), 1, (360, 300), 0⟩ : Snake).length =
        (⟨[((320 : Int), (300 : Int))], (1, 0), 1, (360, 300), 0⟩ : Snake).position.length :=
  snake_segments_invariant.2 20 (fun _ => (0, 0)) ⟨[(300, 300)], (1, 0), 1, (360, 300), 0⟩
    ⟨[(320, 300)], (1, 0), 1, (360, 300), 0⟩ (by decide) (by decide) (by decide)

/-- C10: a head cell in bounds stays in bounds across `move` — the new head,
when the agent moves, is `path[1]`, which passed the bounds filter of the
search — and the initial head is in bounds, so the wall branch of
`check_collision` is never taken on states reached by `move` alone. -/
theorem head_stays_in_bounds :
    (∀ (stream : Nat → Cell) (fuel : Nat) (s : Snake), initSnake stream fuel = some s →
      ∃ hd, s.position.head? = some hd ∧ ¬ wallHit hd) ∧
    (∀ (fuel : Nat) (stream : Nat → Cell) (s s₁ : Snake) (hd : Cell),
      move fuel stream s = some s₁ → s.position.head? = some hd → ¬ wallHit hd →
      ∃ hd₁, s₁.position.head? = some hd₁ ∧ ¬ wallHit hd₁) := by
  constructor
  · intro stream fuel s h
    rw [initSnake] at h
    cases hg : generate_food stream [(5 * GRID_SIZE, 5 * GRID_SIZE)] fuel 0 with
    | none =>
      rw [hg] at h
      exact absurd h (by simp)
    | some f =>
      rw [hg] at h
      simp only [Option.some.injEq] at h
      subst h
      exact ⟨(5 * GRID_SIZE, 5 * GRID_SIZE), rfl, by decide⟩
  · intro fuel stream s s₁ hd hmv hhd hb
    rw [move] at hmv
    cases hpos : s.position with
    | nil =>
      rw [hpos] at hhd
      exact absurd hhd (by simp)
    | cons start rest =>
      rw [hpos] at hmv
      dsimp only at hmv
      cases hp : astar fuel (start :: rest) start s.food with
      | none =>
        rw [hp] at hmv
        simp only [Option.some.injEq] at hmv
        subst hmv
        exact ⟨hd, hhd, hb⟩
      | some p =>
        rw [hp] at hmv
        dsimp only at hmv
        by_cases hlen : p.length < 2
        · rw [if_pos hlen] at hmv
          simp only [Option.some.injEq] at hmv
          subst hmv
          exact ⟨hd, hhd, hb⟩
        · rw [if_neg hlen] at hmv
          cases hnx : p.get? 1 with
          | none =>
            rw [hnx] at hmv
            simp only [Option.some.injEq] at hmv
            subst hmv
            exact ⟨hd, hhd, hb⟩
          | some nxt =>
            rw [hnx] at hmv
            dsimp only at hmv
            have hfree : freeCell (start :: rest) nxt := by
              obtain ⟨-, -, -, h4, -⟩ :=
                astar_sound fuel (start :: rest) start s.food p hp
              apply h4
              cases p with
              | nil => simp at hlen
              | cons a q =>
                cases q with
                | nil => simp at hlen
                | cons b t =>
                  simp only [List.get?] at hnx
                  simp only [Option.some.injEq] at hnx
                  subst hnx
                  simp
            have hnb : ¬ wallHit nxt := not_wallHit_of_freeCell (start :: rest) nxt hfree
            by_cases hf : nxt = s.food
            · rw [if_pos hf] at hmv
              cases hg : generate_food stream (nxt :: (start :: rest)) fuel 0 with
              | none =>
                rw [hg] at hmv
                exact absurd hmv (by simp)
              | some f =>
                rw [hg] at hmv
                simp only [Option.some.injEq] at hmv
                subst hmv
                exact ⟨nxt, rfl, hnb⟩
            · rw [if_neg hf] at hmv
              simp only [Option.some.injEq] at hmv
              subst hmv
              exact ⟨nxt, rfl, hnb⟩

/-- Witness for C10 after a non-growth tick of a one-segment snake. -/
theorem head_stays_in_bounds_witness :
    ∃ hd₁, (⟨[((420 : Int), (400 : Int))], (1, 0), 1, (460, 400), 0⟩ : Snake).position.head? =
        some hd₁ ∧ ¬ wallHit hd₁ :=
  head_stays_in_bounds.2 20 (fun _ => (0, 0)) ⟨[(400, 400)], (1, 0), 1, (460, 400), 0⟩
    ⟨[(420, 400)], (1, 0), 1, (460, 400), 0⟩ (400, 400) (by decide) (by decide) (by decide)

end SnakeApp
